import Mathlib

/-!
Verification development for the pico2-synth firmware core.

The definitions below are a shallow embedding of `src/keyboard.rs`
(the `KeyboardSynth` voice allocator, key-matrix edge detection and
pitch-bend controller) and of the double-buffered sample-production
loop of `src/main.rs`.  Machine floats (`f32`) are modelled as exact
rationals: every arithmetic step the firmware performs on control
values is a single multiplication or addition of stored values, and
the properties of interest relate stored values to each other, not to
real-number rounding.  Rust `u8`/`usize` values are modelled as `Nat`
(with `Fin` where the source maintains a range invariant).
-/

namespace Pico2Synth

/-- KEY_COUNT from keyboard.rs: 12 keys, a full chromatic octave. -/
abbrev KEY_COUNT : Nat := 12

/-- VOICE_COUNT from keyboard.rs: 7 polyphony voices. -/
abbrev VOICE_COUNT : Nat := 7

/-- OCTAVE_COUNT from keyboard.rs: 4 octaves multiplexed via output scanning. -/
abbrev OCTAVE_COUNT : Nat := 4

/-- VOICE_UNASSIGNED from keyboard.rs: `u8::MAX` marks a free voice slot. -/
def VOICE_UNASSIGNED : Nat := 255

/-- SEMITONE_FREQS from keyboard.rs: precomputed frequencies for the 12
semitones of octave 0 (C3..B3). -/
def SEMITONE_FREQS : Fin KEY_COUNT → ℚ :=
  ![130.81, 138.59, 146.83, 155.56, 164.81, 174.61,
    185.00, 196.00, 207.65, 220.00, 233.08, 246.94]

/-- BEND_FACTOR from `set_pitch_bend` in keyboard.rs: the `f32` literal
`0.057762265`, the firmware's stored approximation of ln(2)/12. -/
def BEND_FACTOR : ℚ := 57762265 / 1000000000

/-- encode_note from keyboard.rs: `(octave << 4) | (key & 0x0F)`.
The firmware only ever calls this with `key < 12` and `octave < 4`
(the scan loop in main.rs), so the `u8` arithmetic never wraps. -/
def encode_note (key : Fin KEY_COUNT) (octave : Fin OCTAVE_COUNT) : Nat :=
  (octave.val <<< 4) ||| (key.val &&& 0x0F)

/-- State of `KeyboardSynth` (keyboard.rs).  The `net` field (the fundsp
audio graph) is an external collaborator and carries no allocator state;
the `Shared` cells `freqs`, `gates`, `pitch_bend`, `resonator_freq` are
modelled by their current scalar values. -/
structure KeyboardSynth where
  freqs : Fin VOICE_COUNT → ℚ
  gates : Fin VOICE_COUNT → ℚ
  voice_note : Fin VOICE_COUNT → Nat
  base_freqs : Fin VOICE_COUNT → ℚ
  next_voice : Fin VOICE_COUNT
  key_states : Fin OCTAVE_COUNT → Fin KEY_COUNT → Bool
  pitch_bend : ℚ
  resonator_freq : ℚ

/-- KeyboardSynth::new from keyboard.rs. -/
def KeyboardSynth.new : KeyboardSynth where
  freqs := fun _ => 0
  gates := fun _ => 0
  voice_note := fun _ => VOICE_UNASSIGNED
  base_freqs := fun _ => 0
  next_voice := 0
  key_states := fun _ _ => false
  pitch_bend := 1
  resonator_freq := 880

/-- allocate_voice from keyboard.rs: bind `note` to slot `voice`, store the
base frequency `SEMITONE_FREQS[key] * octave_mult`, write the bent frequency
into the voice's frequency cell and raise its gate. -/
def KeyboardSynth.allocate_voice (st : KeyboardSynth) (voice : Fin VOICE_COUNT)
    (note : Nat) (key : Fin KEY_COUNT) (octave_mult : Nat) : KeyboardSynth :=
  let base_freq : ℚ := SEMITONE_FREQS key * (octave_mult : ℚ)
  { st with
    voice_note := Function.update st.voice_note voice note
    base_freqs := Function.update st.base_freqs voice base_freq
    freqs := Function.update st.freqs voice (base_freq * st.pitch_bend)
    gates := Function.update st.gates voice 1 }

/-- handle_key_change from keyboard.rs.  A press first looks for a voice
already holding the note (retrigger), then for the first unassigned slot,
and otherwise steals the voice at the round-robin cursor, advancing the
cursor by one mod VOICE_COUNT.  A release lowers the gate of the first
voice holding the note, if any.  `Fin.find` returns the least index
satisfying the predicate, exactly like the source's ascending `for` loops
that return or break on the first hit. -/
def KeyboardSynth.handle_key_change (st : KeyboardSynth) (key : Fin KEY_COUNT)
    (octave : Fin OCTAVE_COUNT) (pressed : Bool) : KeyboardSynth :=
  let note := encode_note key octave
  let octave_mult := 1 <<< octave.val
  if pressed then
    match Fin.find (fun v => st.voice_note v = note) with
    | some voice => { st with gates := Function.update st.gates voice 1 }
    | none =>
      match Fin.find (fun v => st.voice_note v = VOICE_UNASSIGNED) with
      | some voice => st.allocate_voice voice note key octave_mult
      | none =>
        let voice := st.next_voice
        let st' := { st with
          next_voice := ⟨(st.next_voice.val + 1) % VOICE_COUNT,
            Nat.mod_lt _ (by decide)⟩ }
        st'.allocate_voice voice note key octave_mult
  else
    match Fin.find (fun v => st.voice_note v = note) with
    | some voice => { st with gates := Function.update st.gates voice 0 }
    | none => st

/-- update_key from keyboard.rs: edge detection.  When the observed level
differs from the stored entry, the entry is updated and the press/release
is handled; otherwise nothing happens. -/
def KeyboardSynth.update_key (st : KeyboardSynth) (key : Fin KEY_COUNT)
    (octave : Fin OCTAVE_COUNT) (pressed : Bool) : KeyboardSynth :=
  if pressed ≠ st.key_states octave key then
    let st' := { st with
      key_states := Function.update st.key_states octave
        (Function.update (st.key_states octave) key pressed) }
    st'.handle_key_change key octave pressed
  else st

/-- set_pitch_bend from keyboard.rs.  The source asserts
`bend >= -12.0 && bend <= 12.0` before touching any state, so an
out-of-range call aborts with no mutation; this is modelled by `none`.
In range, the shared ratio becomes `1 + bend * BEND_FACTOR` and every
assigned voice's frequency cell is rewritten to `base_freq * ratio`. -/
def KeyboardSynth.set_pitch_bend (st : KeyboardSynth) (bend : ℚ) :
    Option KeyboardSynth :=
  if -12 ≤ bend ∧ bend ≤ 12 then
    let ratio := 1 + bend * BEND_FACTOR
    some { st with
      pitch_bend := ratio
      freqs := fun v =>
        if st.voice_note v ≠ VOICE_UNASSIGNED then st.base_freqs v * ratio
        else st.freqs v }
  else none

/-- Key event: one `(key, octave, pressed)` transition, the unit fed to
`handle_key_change` (a press is a note_on, a release a note_off). -/
structure KeyEvent where
  key : Fin KEY_COUNT
  octave : Fin OCTAVE_COUNT
  pressed : Bool
deriving DecidableEq

/-- Apply a sequence of note_on/note_off events through
`handle_key_change`, in order. -/
def applyEvents (evs : List KeyEvent) (st : KeyboardSynth) : KeyboardSynth :=
  evs.foldl (fun s e => s.handle_key_change e.key e.octave e.pressed) st

/-- Encoded note of a `(key, octave)` pair. -/
def encNote (p : Fin KEY_COUNT × Fin OCTAVE_COUNT) : Nat :=
  encode_note p.1 p.2

/-- State after pressing the first `i` of a list of `(key, octave)` pairs
on a freshly created synth, with no releases. -/
def pressUpTo (notes : List (Fin KEY_COUNT × Fin OCTAVE_COUNT)) (i : Nat) :
    KeyboardSynth :=
  applyEvents ((notes.take i).map fun p => ⟨p.1, p.2, true⟩) KeyboardSynth.new

/-- At most one voice slot holds any given note: distinct assigned voices
hold distinct encoded notes. -/
def DistinctAssigned (st : KeyboardSynth) : Prop :=
  ∀ i j : Fin VOICE_COUNT, i ≠ j →
    st.voice_note i ≠ VOICE_UNASSIGNED → st.voice_note j ≠ VOICE_UNASSIGNED →
    st.voice_note i ≠ st.voice_note j

/-- Run a list of raw `(key, octave, level)` observations through
`update_key`, recording the emitted events: an event is recorded exactly
when the observed level differs from the stored `key_states` entry, which
is the condition under which `update_key` invokes `handle_key_change`. -/
def scan : List KeyEvent → KeyboardSynth → KeyboardSynth × List KeyEvent
  | [], st => (st, [])
  | e :: rest, st =>
    if e.pressed ≠ st.key_states e.octave e.key then
      let r := scan rest (st.update_key e.key e.octave e.pressed)
      (r.1, e :: r.2)
    else scan rest st

/-- Polarities of the emitted events belonging to one `(key, octave)` pair. -/
def eventsFor (k : Fin KEY_COUNT) (o : Fin OCTAVE_COUNT) (evs : List KeyEvent) :
    List Bool :=
  evs.filterMap fun e => if e.key = k ∧ e.octave = o then some e.pressed else none

/-- Roles of the two DMA sample buffers in the production loop of main.rs.
`false` is the first half of the static DMA buffer, `true` the second half;
`back` is the buffer being filled, `front` the buffer being drained. -/
structure BufferPair where
  back : Bool
  front : Bool
deriving DecidableEq

/-- Initial buffer roles from main.rs:
`let (mut back_buffer, mut front_buffer) = dma_buffer.split_at_mut(BUFFER_SIZE)`. -/
def initBuffers : BufferPair := ⟨false, true⟩

/-- One iteration of the production loop in main.rs: the front buffer is
queued for DMA, the back buffer is filled, the DMA future is awaited, and
then `mem::swap(&mut back_buffer, &mut front_buffer)` exchanges the roles. -/
def loopIter (b : BufferPair) : BufferPair := ⟨b.front, b.back⟩

/-- Buffer roles during completed transfer number `i` (0-based). -/
def buffersAt (i : Nat) : BufferPair := loopIter^[i] initBuffers

/-! Basic facts about the note encoding and the branch structure of
`handle_key_change`. -/

lemma encode_note_eq (k : Fin KEY_COUNT) (o : Fin OCTAVE_COUNT) :
    encode_note k o = 16 * o.val + k.val := by
  revert k o; decide

lemma encode_note_ne_unassigned (k : Fin KEY_COUNT) (o : Fin OCTAVE_COUNT) :
    encode_note k o ≠ VOICE_UNASSIGNED := by
  revert k o; decide

lemma encode_note_inj {k k' : Fin KEY_COUNT} {o o' : Fin OCTAVE_COUNT}
    (h : encode_note k o = encode_note k' o') : k = k' ∧ o = o' := by
  revert h; revert k k' o o'; decide

lemma hkc_retrigger {st : KeyboardSynth} {k : Fin KEY_COUNT} {o : Fin OCTAVE_COUNT}
    {voice : Fin VOICE_COUNT}
    (h : Fin.find (fun v => st.voice_note v = encode_note k o) = some voice) :
    st.handle_key_change k o true =
      { st with gates := Function.update st.gates voice 1 } := by
  simp only [KeyboardSynth.handle_key_change, h, if_true]

lemma hkc_free {st : KeyboardSynth} {k : Fin KEY_COUNT} {o : Fin OCTAVE_COUNT}
    {voice : Fin VOICE_COUNT}
    (h1 : Fin.find (fun v => st.voice_note v = encode_note k o) = none)
    (h2 : Fin.find (fun v => st.voice_note v = VOICE_UNASSIGNED) = some voice) :
    st.handle_key_change k o true =
      st.allocate_voice voice (encode_note k o) k (1 <<< o.val) := by
  simp only [KeyboardSynth.handle_key_change, h1, h2, if_true]

lemma hkc_steal {st : KeyboardSynth} {k : Fin KEY_COUNT} {o : Fin OCTAVE_COUNT}
    (h1 : Fin.find (fun v => st.voice_note v = encode_note k o) = none)
    (h2 : Fin.find (fun v => st.voice_note v = VOICE_UNASSIGNED) = none) :
    st.handle_key_change k o true =
      KeyboardSynth.allocate_voice
        { st with next_voice := ⟨(st.next_voice.val + 1) % VOICE_COUNT,
            Nat.mod_lt _ (by decide)⟩ }
        st.next_voice (encode_note k o) k (1 <<< o.val) := by
  simp only [KeyboardSynth.handle_key_change, h1, h2, if_true]

lemma hkc_off_some {st : KeyboardSynth} {k : Fin KEY_COUNT} {o : Fin OCTAVE_COUNT}
    {voice : Fin VOICE_COUNT}
    (h : Fin.find (fun v => st.voice_note v = encode_note k o) = some voice) :
    st.handle_key_change k o false =
      { st with gates := Function.update st.gates voice 0 } := by
  simp only [KeyboardSynth.handle_key_change, h, Bool.false_eq_true, if_false]

lemma hkc_off_none {st : KeyboardSynth} {k : Fin KEY_COUNT} {o : Fin OCTAVE_COUNT}
    (h : Fin.find (fun v => st.voice_note v = encode_note k o) = none) :
    st.handle_key_change k o false = st := by
  simp only [KeyboardSynth.handle_key_change, h, Bool.false_eq_true, if_false]

lemma allocate_voice_def (st : KeyboardSynth) (voice : Fin VOICE_COUNT)
    (note : Nat) (key : Fin KEY_COUNT) (octave_mult : Nat) :
    st.allocate_voice voice note key octave_mult =
      { st with
        voice_note := Function.update st.voice_note voice note
        base_freqs := Function.update st.base_freqs voice
          (SEMITONE_FREQS key * (octave_mult : ℚ))
        freqs := Function.update st.freqs voice
          (SEMITONE_FREQS key * (octave_mult : ℚ) * st.pitch_bend)
        gates := Function.update st.gates voice 1 } := rfl

lemma hkc_key_states (st : KeyboardSynth) (k : Fin KEY_COUNT)
    (o : Fin OCTAVE_COUNT) (p : Bool) :
    (st.handle_key_change k o p).key_states = st.key_states := by
  unfold KeyboardSynth.handle_key_change KeyboardSynth.allocate_voice
  cases p <;> dsimp only <;>
    rcases Fin.find (fun v => st.voice_note v = encode_note k o) with _ | v <;>
    simp only [if_true, Bool.false_eq_true, if_false] <;>
    first
      | rfl
      | (rcases Fin.find (fun v => st.voice_note v = VOICE_UNASSIGNED) with _ | w <;> rfl)

lemma hkc_pitch_bend (st : KeyboardSynth) (k : Fin KEY_COUNT)
    (o : Fin OCTAVE_COUNT) (p : Bool) :
    (st.handle_key_change k o p).pitch_bend = st.pitch_bend := by
  unfold KeyboardSynth.handle_key_change KeyboardSynth.allocate_voice
  cases p <;> dsimp only <;>
    rcases Fin.find (fun v => st.voice_note v = encode_note k o) with _ | v <;>
    simp only [if_true, Bool.false_eq_true, if_false] <;>
    first
      | rfl
      | (rcases Fin.find (fun v => st.voice_note v = VOICE_UNASSIGNED) with _ | w <;> rfl)

/-! Preservation of the allocation-exclusivity invariant. -/

lemma distinct_update {st st' : KeyboardSynth} {note : Nat}
    {voice : Fin VOICE_COUNT}
    (hst : DistinctAssigned st) (hnone : ∀ v, st.voice_note v ≠ note)
    (h : st'.voice_note = Function.update st.voice_note voice note) :
    DistinctAssigned st' := by
  intro i j hij hi hj
  rw [h] at hi hj ⊢
  by_cases hiv : i = voice
  · subst hiv
    rw [Function.update_same, Function.update_noteq (Ne.symm hij)]
    exact fun hh => hnone j hh.symm
  · rw [Function.update_noteq hiv] at hi ⊢
    by_cases hjv : j = voice
    · subst hjv
      rw [Function.update_same]
      exact hnone i
    · rw [Function.update_noteq hjv] at hj ⊢
      exact hst i j hij hi hj

lemma distinct_hkc {st : KeyboardSynth} (hst : DistinctAssigned st)
    (k : Fin KEY_COUNT) (o : Fin OCTAVE_COUNT) (p : Bool) :
    DistinctAssigned (st.handle_key_change k o p) := by
  cases p
  · rcases h : Fin.find (fun v => st.voice_note v = encode_note k o) with _ | v
    · rw [hkc_off_none h]; exact hst
    · rw [hkc_off_some h]; exact hst
  · rcases h : Fin.find (fun v => st.voice_note v = encode_note k o) with _ | v
    · have hnone : ∀ v, st.voice_note v ≠ encode_note k o :=
        Fin.find_eq_none_iff.mp h
      rcases h2 : Fin.find (fun v => st.voice_note v = VOICE_UNASSIGNED) with _ | w
      · rw [hkc_steal h h2, allocate_voice_def]
        exact distinct_update hst hnone rfl
      · rw [hkc_free h h2, allocate_voice_def]
        exact distinct_update hst hnone rfl
    · rw [hkc_retrigger h]; exact hst

lemma distinct_applyEvents {st : KeyboardSynth} (hst : DistinctAssigned st)
    (evs : List KeyEvent) : DistinctAssigned (applyEvents evs st) := by
  induction evs generalizing st with
  | nil => exact hst
  | cons e rest ih => exact ih (distinct_hkc hst e.key e.octave e.pressed)

/-- C1: for every sequence of note_on/note_off events applied to a freshly
created KeyboardSynth, at most one voice slot holds any given encoded note:
whenever two distinct voice indices both have an assigned note (not the
unassigned marker), their assigned notes differ. -/
theorem allocation_exclusivity (evs : List KeyEvent) (i j : Fin VOICE_COUNT)
    (hij : i ≠ j)
    (hi : (applyEvents evs KeyboardSynth.new).voice_note i ≠ VOICE_UNASSIGNED)
    (hj : (applyEvents evs KeyboardSynth.new).voice_note j ≠ VOICE_UNASSIGNED) :
    (applyEvents evs KeyboardSynth.new).voice_note i ≠
      (applyEvents evs KeyboardSynth.new).voice_note j :=
  distinct_applyEvents (fun _ _ _ hi' _ => absurd rfl hi') evs i j hij hi hj

/-- Witness for C1 at the concrete event sequence pressing keys 0 and 1 of
octave 0: both voices 0 and 1 are assigned and hold different notes. -/
theorem allocation_exclusivity_witness :
    ((0 : Fin VOICE_COUNT) ≠ 1 ∧
      (applyEvents [⟨0, 0, true⟩, ⟨1, 0, true⟩] KeyboardSynth.new).voice_note 0 ≠
        VOICE_UNASSIGNED ∧
      (applyEvents [⟨0, 0, true⟩, ⟨1, 0, true⟩] KeyboardSynth.new).voice_note 1 ≠
        VOICE_UNASSIGNED) ∧
    (applyEvents [⟨0, 0, true⟩, ⟨1, 0, true⟩] KeyboardSynth.new).voice_note 0 ≠
      (applyEvents [⟨0, 0, true⟩, ⟨1, 0, true⟩] KeyboardSynth.new).voice_note 1 :=
  ⟨⟨by decide, by decide, by decide⟩,
    allocation_exclusivity [⟨0, 0, true⟩, ⟨1, 0, true⟩] 0 1
      (by decide) (by decide) (by decide)⟩

lemma shift_cast (n : Nat) : ((1 <<< n : Nat) : ℚ) = 2 ^ n := by
  simp [Nat.shiftLeft_eq]

/-- C2: a press of a note no voice holds allocates the lowest-index
unassigned voice if one exists, and otherwise steals the voice at the
round-robin cursor (advancing it); either way, the chosen voice gets
`base_frequency = SEMITONE_FREQS[key] * 2^octave`, output frequency
`base_frequency * pitch_bend`, gate 1, and nothing else changes. -/
theorem note_on_allocation (st : KeyboardSynth) (k : Fin KEY_COUNT)
    (o : Fin OCTAVE_COUNT)
    (hnh : ∀ v, st.voice_note v ≠ encode_note k o) :
    (∀ voice, Fin.find (fun v => st.voice_note v = VOICE_UNASSIGNED) = some voice →
      st.voice_note voice = VOICE_UNASSIGNED ∧
      (∀ u, u < voice → st.voice_note u ≠ VOICE_UNASSIGNED) ∧
      (st.handle_key_change k o true).voice_note voice = encode_note k o ∧
      (st.handle_key_change k o true).base_freqs voice =
        SEMITONE_FREQS k * 2 ^ o.val ∧
      (st.handle_key_change k o true).freqs voice =
        SEMITONE_FREQS k * 2 ^ o.val * st.pitch_bend ∧
      (st.handle_key_change k o true).gates voice = 1 ∧
      (∀ u, u ≠ voice →
        (st.handle_key_change k o true).voice_note u = st.voice_note u ∧
        (st.handle_key_change k o true).base_freqs u = st.base_freqs u ∧
        (st.handle_key_change k o true).freqs u = st.freqs u ∧
        (st.handle_key_change k o true).gates u = st.gates u) ∧
      (st.handle_key_change k o true).next_voice = st.next_voice ∧
      (st.handle_key_change k o true).key_states = st.key_states ∧
      (st.handle_key_change k o true).pitch_bend = st.pitch_bend) ∧
    (Fin.find (fun v => st.voice_note v = VOICE_UNASSIGNED) = none →
      (st.handle_key_change k o true).voice_note st.next_voice =
        encode_note k o ∧
      (st.handle_key_change k o true).base_freqs st.next_voice =
        SEMITONE_FREQS k * 2 ^ o.val ∧
      (st.handle_key_change k o true).freqs st.next_voice =
        SEMITONE_FREQS k * 2 ^ o.val * st.pitch_bend ∧
      (st.handle_key_change k o true).gates st.next_voice = 1 ∧
      (∀ u, u ≠ st.next_voice →
        (st.handle_key_change k o true).voice_note u = st.voice_note u ∧
        (st.handle_key_change k o true).base_freqs u = st.base_freqs u ∧
        (st.handle_key_change k o true).freqs u = st.freqs u ∧
        (st.handle_key_change k o true).gates u = st.gates u) ∧
      (st.handle_key_change k o true).next_voice.val =
        (st.next_voice.val + 1) % VOICE_COUNT ∧
      (st.handle_key_change k o true).key_states = st.key_states ∧
      (st.handle_key_change k o true).pitch_bend = st.pitch_bend) := by
  have hfind : Fin.find (fun v => st.voice_note v = encode_note k o) = none :=
    Fin.find_eq_none_iff.mpr hnh
  constructor
  · intro voice h2
    rw [hkc_free hfind h2, allocate_voice_def]
    refine ⟨(Fin.find_eq_some_iff.mp h2).1,
      fun u hu hc => absurd ((Fin.find_eq_some_iff.mp h2).2 u hc) (not_le.mpr hu),
      Function.update_same .., ?_, ?_, Function.update_same .., ?_, rfl, rfl, rfl⟩
    · simp only [Function.update_same, shift_cast]
    · simp only [Function.update_same, shift_cast]
    · intro u hu
      exact ⟨Function.update_noteq hu .., Function.update_noteq hu ..,
        Function.update_noteq hu .., Function.update_noteq hu ..⟩
  · intro h2
    rw [hkc_steal hfind h2, allocate_voice_def]
    refine ⟨Function.update_same .., ?_, ?_, Function.update_same .., ?_, rfl,
      rfl, rfl⟩
    · simp only [Function.update_same, shift_cast]
    · simp only [Function.update_same, shift_cast]
    · intro u hu
      exact ⟨Function.update_noteq hu .., Function.update_noteq hu ..,
        Function.update_noteq hu .., Function.update_noteq hu ..⟩

/-- Witness for C2: on a fresh synth, pressing key 2 of octave 1 (a note no
voice holds) assigns voice 0, the lowest-index free slot. -/
theorem note_on_allocation_witness :
    (∀ v, KeyboardSynth.new.voice_note v ≠ encode_note 2 1) ∧
    (Fin.find (fun v => KeyboardSynth.new.voice_note v = VOICE_UNASSIGNED) =
      some 0) ∧
    (KeyboardSynth.new.handle_key_change 2 1 true).voice_note 0 =
      encode_note 2 1 :=
  ⟨by decide, by decide,
    ((note_on_allocation KeyboardSynth.new 2 1 (by decide)).1 0
      (by decide)).2.2.1⟩

/-- C4: when some voice already holds the pressed note, note_on is a pure
retrigger: every voice's assigned note, base frequency and output frequency,
the cursor, the bend ratio and the key-state table are unchanged; only the
holding voice's gate is set to 1; and a second identical note_on changes
nothing further (same slot, same base frequency). -/
theorem retrigger_idempotent (st : KeyboardSynth) (k : Fin KEY_COUNT)
    (o : Fin OCTAVE_COUNT) (voice : Fin VOICE_COUNT)
    (h : Fin.find (fun v => st.voice_note v = encode_note k o) = some voice) :
    (st.handle_key_change k o true).voice_note = st.voice_note ∧
    (st.handle_key_change k o true).base_freqs = st.base_freqs ∧
    (st.handle_key_change k o true).freqs = st.freqs ∧
    (st.handle_key_change k o true).next_voice = st.next_voice ∧
    (st.handle_key_change k o true).pitch_bend = st.pitch_bend ∧
    (st.handle_key_change k o true).key_states = st.key_states ∧
    (st.handle_key_change k o true).gates voice = 1 ∧
    (∀ u, u ≠ voice → (st.handle_key_change k o true).gates u = st.gates u) ∧
    (st.handle_key_change k o true).handle_key_change k o true =
      st.handle_key_change k o true := by
  rw [hkc_retrigger h]
  refine ⟨rfl, rfl, rfl, rfl, rfl, rfl, Function.update_same .., ?_, ?_⟩
  · exact fun u hu => Function.update_noteq hu ..
  · have h2 : Fin.find
        (fun v => ({ st with gates := Function.update st.gates voice 1} :
          KeyboardSynth).voice_note v = encode_note k o) = some voice := h
    rw [hkc_retrigger h2]
    simp only [Function.update_idem]

/-- Witness for C4: after pressing key 0 of octave 0 on a fresh synth,
voice 0 holds that note, and a second press of the same key is idempotent. -/
theorem retrigger_idempotent_witness :
    (Fin.find (fun v => (KeyboardSynth.new.handle_key_change 0 0 true).voice_note v =
        encode_note 0 0) = some 0) ∧
    (((KeyboardSynth.new.handle_key_change 0 0 true).handle_key_change 0 0
        true).voice_note =
      (KeyboardSynth.new.handle_key_change 0 0 true).voice_note) :=
  ⟨by decide,
    (retrigger_idempotent (KeyboardSynth.new.handle_key_change 0 0 true) 0 0 0
      (by decide)).1⟩

/-- C5: note_off lowers the gate of the (first) voice assigned to the note
and changes nothing else; when no voice holds the note it is a no-op. -/
theorem note_off_frame (st : KeyboardSynth) (k : Fin KEY_COUNT)
    (o : Fin OCTAVE_COUNT) :
    (∀ voice, Fin.find (fun v => st.voice_note v = encode_note k o) = some voice →
      st.voice_note voice = encode_note k o ∧
      (st.handle_key_change k o false).gates voice = 0 ∧
      (∀ u, u ≠ voice →
        (st.handle_key_change k o false).gates u = st.gates u) ∧
      (st.handle_key_change k o false).voice_note = st.voice_note ∧
      (st.handle_key_change k o false).base_freqs = st.base_freqs ∧
      (st.handle_key_change k o false).freqs = st.freqs ∧
      (st.handle_key_change k o false).next_voice = st.next_voice ∧
      (st.handle_key_change k o false).pitch_bend = st.pitch_bend ∧
      (st.handle_key_change k o false).key_states = st.key_states) ∧
    ((∀ v, st.voice_note v ≠ encode_note k o) →
      st.handle_key_change k o false = st) := by
  constructor
  · intro voice h
    rw [hkc_off_some h]
    exact ⟨(Fin.find_eq_some_iff.mp h).1, Function.update_same ..,
      fun u hu => Function.update_noteq hu .., rfl, rfl, rfl, rfl, rfl, rfl⟩
  · intro hn
    exact hkc_off_none (Fin.find_eq_none_iff.mpr hn)

/-- Witness for C5: after pressing key 0 of octave 0, releasing it keeps the
voice assigned (voice_note unchanged), and releasing the never-pressed key 1
is a no-op. -/
theorem note_off_frame_witness :
    (Fin.find (fun v => (KeyboardSynth.new.handle_key_change 0 0 true).voice_note v =
        encode_note 0 0) = some 0) ∧
    ((KeyboardSynth.new.handle_key_change 0 0 true).handle_key_change 0 0
        false).voice_note =
      (KeyboardSynth.new.handle_key_change 0 0 true).voice_note ∧
    (∀ v, (KeyboardSynth.new.handle_key_change 0 0 true).voice_note v ≠
        encode_note 1 0) ∧
    (KeyboardSynth.new.handle_key_change 0 0 true).handle_key_change 1 0 false =
      KeyboardSynth.new.handle_key_change 0 0 true :=
  ⟨by decide,
    ((note_off_frame (KeyboardSynth.new.handle_key_change 0 0 true) 0 0).1 0
      (by decide)).2.2.2.1,
    by decide,
    (note_off_frame (KeyboardSynth.new.handle_key_change 0 0 true) 1 0).2
      (by decide)⟩

/-- C6: a pitch-bend value outside the supported range [-12, 12] is rejected
at the call boundary (the source asserts before any mutation), so no state
change happens; the model returns `none`. -/
theorem pitch_bend_rejected (st : KeyboardSynth) (bend : ℚ)
    (h : bend < -12 ∨ 12 < bend) : st.set_pitch_bend bend = none := by
  unfold KeyboardSynth.set_pitch_bend
  rw [if_neg]
  rintro ⟨h1, h2⟩
  rcases h with h | h
  · exact absurd h1 (not_le.mpr h)
  · exact absurd h2 (not_le.mpr h)

/-- Witness for C6: bend 13 is out of range and rejected on a fresh synth. -/
theorem pitch_bend_rejected_witness :
    ((13 : ℚ) < -12 ∨ (12 : ℚ) < 13) ∧
      KeyboardSynth.new.set_pitch_bend 13 = none :=
  ⟨Or.inr (by norm_num), pitch_bend_rejected KeyboardSynth.new 13
    (Or.inr (by norm_num))⟩

/-- C7: for a legal bend, set_pitch_bend succeeds, stores the ratio
`1 + bend * BEND_FACTOR` (BEND_FACTOR being the firmware's constant for
ln(2)/12), sets every assigned voice's output frequency to exactly
`base_frequency * ratio`, and leaves unassigned voices' base and output
frequencies, all assignments, gates, the cursor and the key table unchanged. -/
theorem pitch_bend_applied (st : KeyboardSynth) (bend : ℚ)
    (h1 : -12 ≤ bend) (h2 : bend ≤ 12) :
    (∃ st', st.set_pitch_bend bend = some st') ∧
    (∀ st', st.set_pitch_bend bend = some st' →
      st'.pitch_bend = 1 + bend * BEND_FACTOR ∧
      (∀ v, st.voice_note v ≠ VOICE_UNASSIGNED →
        st'.freqs v = st.base_freqs v * (1 + bend * BEND_FACTOR)) ∧
      (∀ v, st.voice_note v = VOICE_UNASSIGNED →
        st'.base_freqs v = st.base_freqs v ∧ st'.freqs v = st.freqs v) ∧
      st'.voice_note = st.voice_note ∧ st'.base_freqs = st.base_freqs ∧
      st'.gates = st.gates ∧ st'.next_voice = st.next_voice ∧
      st'.key_states = st.key_states) := by
  unfold KeyboardSynth.set_pitch_bend
  rw [if_pos ⟨h1, h2⟩]
  refine ⟨⟨_, rfl⟩, ?_⟩
  intro st' h
  obtain rfl := (Option.some.inj h).symm
  refine ⟨rfl, ?_, ?_, rfl, rfl, rfl, rfl, rfl⟩
  · intro v hv
    exact if_pos hv
  · intro v hv
    exact ⟨rfl, if_neg (fun hc => hc hv)⟩

/-- Witness for C7: bend 2 is legal and succeeds on a synth with voice 0
assigned (key 0, octave 0 pressed). -/
theorem pitch_bend_applied_witness :
    ((-12 : ℚ) ≤ 2 ∧ (2 : ℚ) ≤ 12) ∧
    (∃ st', (KeyboardSynth.new.handle_key_change 0 0 true).set_pitch_bend 2 =
      some st') :=
  ⟨⟨by norm_num, by norm_num⟩,
    (pitch_bend_applied (KeyboardSynth.new.handle_key_change 0 0 true) 2
      (by norm_num) (by norm_num)).1⟩

lemma buffersAt_succ (i : Nat) : buffersAt (i + 1) = loopIter (buffersAt i) :=
  Function.iterate_succ_apply' loopIter i initBuffers

lemma buffers_distinct : ∀ i, (buffersAt i).back ≠ (buffersAt i).front := by
  intro i
  induction i with
  | zero => decide
  | succ n ih =>
    rw [buffersAt_succ]
    exact fun h => ih h.symm

/-- C9: in the production loop, buffer roles alternate in lock-step with
transfer completions: the buffer drained (front) during transfer i is the
buffer filled (back) during transfer i+1, the roles swap exactly once per
completion, the producer never fills the buffer being drained, the drain
target changes every transfer (never repeats) and returns after two (never
skips). -/
theorem buffer_alternation (i : Nat) :
    (buffersAt (i + 1)).back = (buffersAt i).front ∧
    (buffersAt (i + 1)).front = (buffersAt i).back ∧
    (buffersAt i).back ≠ (buffersAt i).front ∧
    (buffersAt (i + 1)).front ≠ (buffersAt i).front ∧
    (buffersAt (i + 2)).front = (buffersAt i).front := by
  refine ⟨by rw [buffersAt_succ]; rfl, by rw [buffersAt_succ]; rfl,
    buffers_distinct i, ?_, ?_⟩
  · rw [buffersAt_succ]
    exact fun h => buffers_distinct i h
  · rw [buffersAt_succ, buffersAt_succ]
    rfl

lemma hkc_vn_ne_unassigned {st : KeyboardSynth} (k : Fin KEY_COUNT)
    (o : Fin OCTAVE_COUNT) (p : Bool) (v : Fin VOICE_COUNT)
    (h : st.voice_note v ≠ VOICE_UNASSIGNED) :
    (st.handle_key_change k o p).voice_note v ≠ VOICE_UNASSIGNED := by
  cases p
  · rcases hf : Fin.find (fun u => st.voice_note u = encode_note k o) with _ | w
    · rw [hkc_off_none hf]; exact h
    · rw [hkc_off_some hf]; exact h
  · rcases hf : Fin.find (fun u => st.voice_note u = encode_note k o) with _ | w
    · rcases h2 : Fin.find (fun u => st.voice_note u = VOICE_UNASSIGNED)
        with _ | w
      · rw [hkc_steal hf h2, allocate_voice_def]
        show Function.update st.voice_note st.next_voice (encode_note k o) v ≠
          VOICE_UNASSIGNED
        by_cases hv : v = st.next_voice
        · subst hv
          rw [Function.update_same]
          exact encode_note_ne_unassigned k o
        · rw [Function.update_noteq hv]
          exact h
      · rw [hkc_free hf h2, allocate_voice_def]
        show Function.update st.voice_note w (encode_note k o) v ≠
          VOICE_UNASSIGNED
        by_cases hv : v = w
        · subst hv
          rw [Function.update_same]
          exact encode_note_ne_unassigned k o
        · rw [Function.update_noteq hv]
          exact h
    · rw [hkc_retrigger hf]; exact h

/-- C10: no operation ever returns a voice to the unassigned state — presses,
releases, scans and pitch-bend all preserve assignedness (release only lowers
the gate), so once every slot has been assigned the free-slot search of
note_on always fails and every press of an unheld note steals the voice at
the cursor, even after all keys have been released. -/
theorem voices_never_freed :
    (∀ (st : KeyboardSynth) (k : Fin KEY_COUNT) (o : Fin OCTAVE_COUNT)
      (p : Bool) (v : Fin VOICE_COUNT), st.voice_note v ≠ VOICE_UNASSIGNED →
      (st.handle_key_change k o p).voice_note v ≠ VOICE_UNASSIGNED) ∧
    (∀ (st : KeyboardSynth) (k : Fin KEY_COUNT) (o : Fin OCTAVE_COUNT)
      (p : Bool) (v : Fin VOICE_COUNT), st.voice_note v ≠ VOICE_UNASSIGNED →
      (st.update_key k o p).voice_note v ≠ VOICE_UNASSIGNED) ∧
    (∀ (st st' : KeyboardSynth) (b : ℚ), st.set_pitch_bend b = some st' →
      st'.voice_note = st.voice_note) ∧
    (∀ (st : KeyboardSynth) (evs : List KeyEvent) (v : Fin VOICE_COUNT),
      st.voice_note v ≠ VOICE_UNASSIGNED →
      (applyEvents evs st).voice_note v ≠ VOICE_UNASSIGNED) ∧
    (∀ (st : KeyboardSynth) (k : Fin KEY_COUNT) (o : Fin OCTAVE_COUNT),
      (∀ v, st.voice_note v ≠ VOICE_UNASSIGNED) →
      Fin.find (fun v => st.voice_note v = VOICE_UNASSIGNED) = none ∧
      ((∀ v, st.voice_note v ≠ encode_note k o) →
        (st.handle_key_change k o true).voice_note st.next_voice =
          encode_note k o ∧
        (st.handle_key_change k o true).next_voice.val =
          (st.next_voice.val + 1) % VOICE_COUNT)) := by
  refine ⟨fun st k o p v h => hkc_vn_ne_unassigned k o p v h, ?_, ?_, ?_, ?_⟩
  · intro st k o p v h
    unfold KeyboardSynth.update_key
    split
    · exact hkc_vn_ne_unassigned k o p v h
    · exact h
  · intro st st' b h
    unfold KeyboardSynth.set_pitch_bend at h
    split at h
    · obtain rfl := Option.some.inj h
      rfl
    · exact absurd h (by simp)
  · intro st evs v h
    induction evs generalizing st with
    | nil => exact h
    | cons e rest ih =>
      exact ih _ (hkc_vn_ne_unassigned e.key e.octave e.pressed v h)
  · intro st k o hall
    have h2 : Fin.find (fun v => st.voice_note v = VOICE_UNASSIGNED) = none :=
      Fin.find_eq_none_iff.mpr hall
    refine ⟨h2, fun hnh => ?_⟩
    have hf : Fin.find (fun v => st.voice_note v = encode_note k o) = none :=
      Fin.find_eq_none_iff.mpr hnh
    rw [hkc_steal hf h2, allocate_voice_def]
    exact ⟨Function.update_same .., rfl⟩

/-- Witness for C10: after pressing the 7 distinct keys 0..6 of octave 0
every voice is assigned, releasing all of them keeps every voice assigned,
and a subsequent press of key 7 steals voice 0 (the cursor) and advances
the cursor to 1. -/
theorem voices_never_freed_witness :
    (∀ v, (applyEvents
      [⟨0, 0, true⟩, ⟨1, 0, true⟩, ⟨2, 0, true⟩, ⟨3, 0, true⟩, ⟨4, 0, true⟩,
        ⟨5, 0, true⟩, ⟨6, 0, true⟩, ⟨0, 0, false⟩, ⟨1, 0, false⟩, ⟨2, 0, false⟩,
        ⟨3, 0, false⟩, ⟨4, 0, false⟩, ⟨5, 0, false⟩, ⟨6, 0, false⟩]
      KeyboardSynth.new).voice_note v ≠ VOICE_UNASSIGNED) ∧
    (∀ v, (applyEvents
      [⟨0, 0, true⟩, ⟨1, 0, true⟩, ⟨2, 0, true⟩, ⟨3, 0, true⟩, ⟨4, 0, true⟩,
        ⟨5, 0, true⟩, ⟨6, 0, true⟩, ⟨0, 0, false⟩, ⟨1, 0, false⟩, ⟨2, 0, false⟩,
        ⟨3, 0, false⟩, ⟨4, 0, false⟩, ⟨5, 0, false⟩, ⟨6, 0, false⟩]
      KeyboardSynth.new).voice_note v ≠ encode_note 7 0) ∧
    ((applyEvents
      [⟨0, 0, true⟩, ⟨1, 0, true⟩, ⟨2, 0, true⟩, ⟨3, 0, true⟩, ⟨4, 0, true⟩,
        ⟨5, 0, true⟩, ⟨6, 0, true⟩, ⟨0, 0, false⟩, ⟨1, 0, false⟩, ⟨2, 0, false⟩,
        ⟨3, 0, false⟩, ⟨4, 0, false⟩, ⟨5, 0, false⟩, ⟨6, 0, false⟩]
      KeyboardSynth.new).handle_key_change 7 0 true).voice_note
        (applyEvents
      [⟨0, 0, true⟩, ⟨1, 0, true⟩, ⟨2, 0, true⟩, ⟨3, 0, true⟩, ⟨4, 0, true⟩,
        ⟨5, 0, true⟩, ⟨6, 0, true⟩, ⟨0, 0, false⟩, ⟨1, 0, false⟩, ⟨2, 0, false⟩,
        ⟨3, 0, false⟩, ⟨4, 0, false⟩, ⟨5, 0, false⟩, ⟨6, 0, false⟩]
      KeyboardSynth.new).next_voice = encode_note 7 0 :=
  ⟨by decide, by decide,
    ((voices_never_freed.2.2.2.2 _ 7 0 (by decide)).2 (by decide)).1⟩

/-! Edge-detection lemmas for the key-matrix scanner. -/

lemma update_key_ks_self (st : KeyboardSynth) (k : Fin KEY_COUNT)
    (o : Fin OCTAVE_COUNT) (p : Bool) :
    (st.update_key k o p).key_states o k = p := by
  unfold KeyboardSynth.update_key
  split
  · rw [hkc_key_states]
    show Function.update st.key_states o
      (Function.update (st.key_states o) k p) o k = p
    rw [Function.update_same, Function.update_same]
  · next h => exact (not_ne_iff.mp h).symm

lemma update_key_ks_other (st : KeyboardSynth) (k : Fin KEY_COUNT)
    (o : Fin OCTAVE_COUNT) (p : Bool) (k' : Fin KEY_COUNT)
    (o' : Fin OCTAVE_COUNT) (h : ¬(k = k' ∧ o = o')) :
    (st.update_key k o p).key_states o' k' = st.key_states o' k' := by
  unfold KeyboardSynth.update_key
  split
  · rw [hkc_key_states]
    show Function.update st.key_states o
      (Function.update (st.key_states o) k p) o' k' = st.key_states o' k'
    by_cases ho : o' = o
    · subst ho
      rw [Function.update_same]
      have hk : k' ≠ k := fun hk => h ⟨hk.symm, rfl⟩
      rw [Function.update_noteq hk]
    · rw [Function.update_noteq ho]
  · rfl

lemma scan_cons (e : KeyEvent) (rest : List KeyEvent) (st : KeyboardSynth) :
    scan (e :: rest) st =
      if e.pressed ≠ st.key_states e.octave e.key then
        ((scan rest (st.update_key e.key e.octave e.pressed)).1,
          e :: (scan rest (st.update_key e.key e.octave e.pressed)).2)
      else scan rest st := rfl

lemma eventsFor_cons (k : Fin KEY_COUNT) (o : Fin OCTAVE_COUNT) (e : KeyEvent)
    (evs : List KeyEvent) :
    eventsFor k o (e :: evs) =
      if e.key = k ∧ e.octave = o then e.pressed :: eventsFor k o evs
      else eventsFor k o evs := by
  unfold eventsFor
  rw [List.filterMap_cons]
  by_cases hm : e.key = k ∧ e.octave = o
  · rw [if_pos hm, if_pos hm]
  · rw [if_neg hm, if_neg hm]

lemma scan_chain (inputs : List KeyEvent) (st : KeyboardSynth)
    (k : Fin KEY_COUNT) (o : Fin OCTAVE_COUNT) :
    List.Chain' (fun a b => a ≠ b)
      (st.key_states o k :: eventsFor k o (scan inputs st).2) := by
  induction inputs generalizing st with
  | nil => exact List.chain'_singleton _
  | cons e rest ih =>
    rw [scan_cons]
    by_cases hc : e.pressed ≠ st.key_states e.octave e.key
    · rw [if_pos hc]
      dsimp only
      rw [eventsFor_cons]
      by_cases hm : e.key = k ∧ e.octave = o
      · obtain ⟨hk, ho⟩ := hm
        subst hk; subst ho
        rw [if_pos ⟨rfl, rfl⟩, List.chain'_cons]
        refine ⟨fun hh => hc hh.symm, ?_⟩
        have hks := update_key_ks_self st e.key e.octave e.pressed
        have := ih (st.update_key e.key e.octave e.pressed)
        rwa [hks] at this
      · rw [if_neg hm]
        have hks := update_key_ks_other st e.key e.octave e.pressed k o
          (fun hh => hm hh)
        have := ih (st.update_key e.key e.octave e.pressed)
        rwa [hks] at this
    · rw [if_neg hc]
      exact ih st

/-- C8: edge-detection determinism of the key scanner.  Feeding any raw
level sequence through `update_key` from a fresh synth, the emitted event
stream of every (key, octave) pair strictly alternates in polarity; one
observation emits an event exactly when its level differs from the stored
entry and always leaves the stored entry equal to the observed level; a
repeated observation in the same instant emits nothing and changes nothing. -/
theorem scanner_event_determinism :
    (∀ (inputs : List KeyEvent) (k : Fin KEY_COUNT) (o : Fin OCTAVE_COUNT),
      List.Chain' (fun a b => a ≠ b)
        (eventsFor k o (scan inputs KeyboardSynth.new).2)) ∧
    (∀ (st : KeyboardSynth) (e : KeyEvent),
      ((scan [e] st).2 = [e] ↔ e.pressed ≠ st.key_states e.octave e.key) ∧
      (scan [e] st).1.key_states e.octave e.key = e.pressed ∧
      (scan [e] st).1 = st.update_key e.key e.octave e.pressed) ∧
    (∀ (st : KeyboardSynth) (k : Fin KEY_COUNT) (o : Fin OCTAVE_COUNT)
      (p : Bool), p = st.key_states o k → st.update_key k o p = st) ∧
    (∀ (st : KeyboardSynth) (e : KeyEvent), scan [e, e] st = scan [e] st) := by
  have hnoop : ∀ (st : KeyboardSynth) (k : Fin KEY_COUNT)
      (o : Fin OCTAVE_COUNT) (p : Bool), p = st.key_states o k →
      st.update_key k o p = st := by
    intro st k o p h
    unfold KeyboardSynth.update_key
    rw [if_neg (fun hc => hc h)]
  refine ⟨?_, ?_, hnoop, ?_⟩
  · intro inputs k o
    exact (scan_chain inputs KeyboardSynth.new k o).tail
  · intro st e
    by_cases hc : e.pressed ≠ st.key_states e.octave e.key
    · have h1 : scan [e] st = (st.update_key e.key e.octave e.pressed, [e]) := by
        rw [scan_cons, if_pos hc]
        rfl
      rw [h1]
      exact ⟨⟨fun _ => hc, fun _ => rfl⟩,
        update_key_ks_self st e.key e.octave e.pressed, rfl⟩
    · have heq : e.pressed = st.key_states e.octave e.key := not_ne_iff.mp hc
      have h1 : scan [e] st = (st, []) := by
        rw [scan_cons, if_neg hc]
        rfl
      rw [h1]
      exact ⟨⟨fun hh => List.noConfusion hh, fun hh => absurd hh hc⟩,
        heq.symm, (hnoop st e.key e.octave e.pressed heq).symm⟩
  · intro st e
    by_cases hc : e.pressed ≠ st.key_states e.octave e.key
    · have h1 : scan [e] st = (st.update_key e.key e.octave e.pressed, [e]) := by
        rw [scan_cons, if_pos hc]
        rfl
      have h2 : scan [e] (st.update_key e.key e.octave e.pressed) =
          (st.update_key e.key e.octave e.pressed, []) := by
        rw [scan_cons, if_neg (fun hh =>
          hh (update_key_ks_self st e.key e.octave e.pressed).symm)]
        rfl
      rw [scan_cons e [e] st, if_pos hc, h1, h2]
    · rw [scan_cons e [e] st, if_neg hc, scan_cons e [] st, if_neg hc]

/-- Witness for C8: observing key 0 of octave 0 released on a fresh synth
(whose stored entry is already `false`) emits nothing and changes nothing. -/
theorem scanner_event_determinism_witness :
    (false = KeyboardSynth.new.key_states 0 0) ∧
    KeyboardSynth.new.update_key 0 0 false = KeyboardSynth.new :=
  ⟨by decide, scanner_event_determinism.2.2.1 KeyboardSynth.new 0 0 false
    (by decide)⟩

/-! Round-robin fairness: invariant for sequences of distinct presses. -/

lemma nodup_get_not_mem_take {α : Type _} (l : List α) (hnd : l.Nodup)
    (i : Nat) (hi : i < l.length) : l.get ⟨i, hi⟩ ∉ l.take i := by
  intro hmem
  have h0 : l = l.take i ++ l.drop i := (List.take_append_drop i l).symm
  have hd := List.disjoint_of_nodup_append (h0 ▸ hnd)
  have hmd : l.get ⟨i, hi⟩ ∈ l.drop i := by
    have h3 : (0 : Nat) < (l.drop i).length := by
      simp [List.length_drop]
      omega
    have h4 : (l.drop i).get ⟨0, h3⟩ = l.get ⟨i, hi⟩ := by
      simp [List.getElem_drop]
    exact h4 ▸ List.get_mem _ 0 h3
  exact hd hmem hmd

lemma press_fresh (notes : List (Fin KEY_COUNT × Fin OCTAVE_COUNT))
    (hnd : (notes.map encNote).Nodup) (i : Nat) (hi : i < notes.length) :
    encNote (notes.get ⟨i, hi⟩) ∉ (notes.take i).map encNote := by
  rw [List.map_take]
  have hil : i < (notes.map encNote).length := by
    rw [List.length_map]; exact hi
  have hget : (notes.map encNote).get ⟨i, hil⟩ = encNote (notes.get ⟨i, hi⟩) := by
    simp
  exact hget ▸ nodup_get_not_mem_take (notes.map encNote) hnd i hil

lemma pressUpTo_succ (notes : List (Fin KEY_COUNT × Fin OCTAVE_COUNT))
    (i : Nat) (hi : i < notes.length) :
    pressUpTo notes (i + 1) = (pressUpTo notes i).handle_key_change
      (notes.get ⟨i, hi⟩).1 (notes.get ⟨i, hi⟩).2 true := by
  unfold pressUpTo applyEvents
  rw [List.take_succ, List.getElem?_eq_getElem hi]
  simp only [Option.toList_some, List.map_append, List.map_cons, List.map_nil,
    List.foldl_append, List.foldl_cons, List.foldl_nil]
  rfl

lemma press_invariant (notes : List (Fin KEY_COUNT × Fin OCTAVE_COUNT))
    (hnd : (notes.map encNote).Nodup) :
    ∀ i, i ≤ notes.length →
      (pressUpTo notes i).next_voice.val = (i - VOICE_COUNT) % VOICE_COUNT ∧
      (∀ v : Fin VOICE_COUNT, v.val < i →
        (pressUpTo notes i).voice_note v ≠ VOICE_UNASSIGNED) ∧
      (∀ v : Fin VOICE_COUNT, i ≤ v.val →
        (pressUpTo notes i).voice_note v = VOICE_UNASSIGNED) ∧
      (∀ v, (pressUpTo notes i).voice_note v ≠ VOICE_UNASSIGNED →
        (pressUpTo notes i).voice_note v ∈ (notes.take i).map encNote) := by
  intro i
  induction i with
  | zero =>
    intro _
    exact ⟨rfl, fun v hv => absurd hv (Nat.not_lt_zero _), fun v _ => rfl,
      fun v hv => absurd rfl hv⟩
  | succ i ih =>
    intro hi1
    have hi : i < notes.length := hi1
    obtain ⟨ihc, iha, ihf, ihm⟩ := ih (Nat.le_of_lt hi)
    have hstep := pressUpTo_succ notes i hi
    have hnh : ∀ v, (pressUpTo notes i).voice_note v ≠
        encode_note (notes.get ⟨i, hi⟩).1 (notes.get ⟨i, hi⟩).2 := by
      intro v hv
      have hne : (pressUpTo notes i).voice_note v ≠ VOICE_UNASSIGNED := by
        rw [hv]
        exact encode_note_ne_unassigned _ _
      have hmem := ihm v hne
      rw [hv] at hmem
      exact press_fresh notes hnd i hi hmem
    have hf : Fin.find (fun v => (pressUpTo notes i).voice_note v =
        encode_note (notes.get ⟨i, hi⟩).1 (notes.get ⟨i, hi⟩).2) = none :=
      Fin.find_eq_none_iff.mpr hnh
    have htake : (notes.take (i + 1)).map encNote =
        (notes.take i).map encNote ++ [encNote (notes.get ⟨i, hi⟩)] := by
      rw [List.take_succ, List.getElem?_eq_getElem hi]
      simp only [Option.toList_some, List.map_append, List.map_cons,
        List.map_nil]
      rfl
    by_cases hcase : VOICE_COUNT ≤ i
    · have hall : ∀ v : Fin VOICE_COUNT,
          (pressUpTo notes i).voice_note v ≠ VOICE_UNASSIGNED :=
        fun v => iha v (lt_of_lt_of_le v.isLt hcase)
      have h2 : Fin.find (fun v => (pressUpTo notes i).voice_note v =
          VOICE_UNASSIGNED) = none := Fin.find_eq_none_iff.mpr hall
      rw [hstep, hkc_steal hf h2, allocate_voice_def]
      refine ⟨?_, ?_, ?_, ?_⟩
      · show ((pressUpTo notes i).next_voice.val + 1) % VOICE_COUNT =
          (i + 1 - VOICE_COUNT) % VOICE_COUNT
        rw [ihc]
        show ((i - 7) % 7 + 1) % 7 = (i + 1 - 7) % 7
        have h7 : 7 ≤ i := hcase
        omega
      · intro v _
        show Function.update (pressUpTo notes i).voice_note
          (pressUpTo notes i).next_voice
          (encode_note (notes.get ⟨i, hi⟩).1 (notes.get ⟨i, hi⟩).2) v ≠
          VOICE_UNASSIGNED
        by_cases hv : v = (pressUpTo notes i).next_voice
        · subst hv
          rw [Function.update_same]
          exact encode_note_ne_unassigned _ _
        · rw [Function.update_noteq hv]
          exact hall v
      · intro v hv1
        exfalso
        have hlt : v.val < 7 := v.isLt
        have h7 : 7 ≤ i := hcase
        omega
      · intro v hv
        show Function.update (pressUpTo notes i).voice_note
          (pressUpTo notes i).next_voice
          (encode_note (notes.get ⟨i, hi⟩).1 (notes.get ⟨i, hi⟩).2) v ∈
          (notes.take (i + 1)).map encNote
        rw [htake]
        by_cases hveq : v = (pressUpTo notes i).next_voice
        · subst hveq
          rw [Function.update_same]
          exact List.mem_append_right _ (List.mem_singleton.mpr rfl)
        · rw [Function.update_noteq hveq]
          refine List.mem_append_left _ (ihm v ?_)
          have hv' : Function.update (pressUpTo notes i).voice_note
              (pressUpTo notes i).next_voice
              (encode_note (notes.get ⟨i, hi⟩).1 (notes.get ⟨i, hi⟩).2) v ≠
              VOICE_UNASSIGNED := hv
          rwa [Function.update_noteq hveq] at hv'
    · push_neg at hcase
      have hi7 : i < VOICE_COUNT := hcase
      have hfree : (pressUpTo notes i).voice_note ⟨i, hi7⟩ = VOICE_UNASSIGNED :=
        ihf ⟨i, hi7⟩ le_rfl
      have h2 : Fin.find (fun v => (pressUpTo notes i).voice_note v =
          VOICE_UNASSIGNED) = some ⟨i, hi7⟩ := by
        rw [Fin.find_eq_some_iff]
        refine ⟨hfree, fun j hj => ?_⟩
        by_contra hlt
        push_neg at hlt
        exact iha j hlt hj
      rw [hstep, hkc_free hf h2, allocate_voice_def]
      refine ⟨?_, ?_, ?_, ?_⟩
      · show (pressUpTo notes i).next_voice.val =
          (i + 1 - VOICE_COUNT) % VOICE_COUNT
        rw [ihc]
        show (i - 7) % 7 = (i + 1 - 7) % 7
        have h7 : i < 7 := hcase
        omega
      · intro v hv1
        show Function.update (pressUpTo notes i).voice_note ⟨i, hi7⟩
          (encode_note (notes.get ⟨i, hi⟩).1 (notes.get ⟨i, hi⟩).2) v ≠
          VOICE_UNASSIGNED
        by_cases hv : v = ⟨i, hi7⟩
        · subst hv
          rw [Function.update_same]
          exact encode_note_ne_unassigned _ _
        · rw [Function.update_noteq hv]
          apply iha
          have hne : v.val ≠ i := fun h => hv (Fin.ext h)
          omega
      · intro v hv1
        have hv : v ≠ ⟨i, hi7⟩ :=
          fun hh => absurd (congrArg Fin.val hh) (by simp; omega)
        show Function.update (pressUpTo notes i).voice_note ⟨i, hi7⟩
          (encode_note (notes.get ⟨i, hi⟩).1 (notes.get ⟨i, hi⟩).2) v =
          VOICE_UNASSIGNED
        rw [Function.update_noteq hv]
        exact ihf v (by omega)
      · intro v hv
        show Function.update (pressUpTo notes i).voice_note ⟨i, hi7⟩
          (encode_note (notes.get ⟨i, hi⟩).1 (notes.get ⟨i, hi⟩).2) v ∈
          (notes.take (i + 1)).map encNote
        rw [htake]
        by_cases hveq : v = ⟨i, hi7⟩
        · subst hveq
          rw [Function.update_same]
          exact List.mem_append_right _ (List.mem_singleton.mpr rfl)
        · rw [Function.update_noteq hveq]
          refine List.mem_append_left _ (ihm v ?_)
          have hv' : Function.update (pressUpTo notes i).voice_note ⟨i, hi7⟩
              (encode_note (notes.get ⟨i, hi⟩).1 (notes.get ⟨i, hi⟩).2) v ≠
              VOICE_UNASSIGNED := hv
          rwa [Function.update_noteq hveq] at hv'

/-- C3: the round-robin cursor advances by exactly one mod VOICE_COUNT on
every steal, and is unchanged by retriggers, free-slot assignments, note_off
and set_pitch_bend; consequently, pressing distinct notes with no releases
from a fresh synth, press number i (0-based) for i ≥ VOICE_COUNT finds all
voices busy and steals the voice at the cursor (i - VOICE_COUNT) mod
VOICE_COUNT, advancing the cursor by one, so every voice is stolen exactly
once before any voice is stolen a second time (equal cursor residues are at
least VOICE_COUNT presses apart). -/
theorem round_robin_fairness :
    (∀ (st : KeyboardSynth) (k : Fin KEY_COUNT) (o : Fin OCTAVE_COUNT)
      (voice : Fin VOICE_COUNT),
      Fin.find (fun v => st.voice_note v = encode_note k o) = some voice →
      (st.handle_key_change k o true).next_voice = st.next_voice) ∧
    (∀ (st : KeyboardSynth) (k : Fin KEY_COUNT) (o : Fin OCTAVE_COUNT)
      (voice : Fin VOICE_COUNT),
      Fin.find (fun v => st.voice_note v = encode_note k o) = none →
      Fin.find (fun v => st.voice_note v = VOICE_UNASSIGNED) = some voice →
      (st.handle_key_change k o true).next_voice = st.next_voice) ∧
    (∀ (st : KeyboardSynth) (k : Fin KEY_COUNT) (o : Fin OCTAVE_COUNT),
      Fin.find (fun v => st.voice_note v = encode_note k o) = none →
      Fin.find (fun v => st.voice_note v = VOICE_UNASSIGNED) = none →
      (st.handle_key_change k o true).next_voice.val =
        (st.next_voice.val + 1) % VOICE_COUNT) ∧
    (∀ (st : KeyboardSynth) (k : Fin KEY_COUNT) (o : Fin OCTAVE_COUNT),
      (st.handle_key_change k o false).next_voice = st.next_voice) ∧
    (∀ (st st' : KeyboardSynth) (b : ℚ), st.set_pitch_bend b = some st' →
      st'.next_voice = st.next_voice) ∧
    (∀ (notes : List (Fin KEY_COUNT × Fin OCTAVE_COUNT)),
      (notes.map encNote).Nodup → ∀ i, VOICE_COUNT ≤ i →
      ∀ hi : i < notes.length,
      (pressUpTo notes i).next_voice.val = (i - VOICE_COUNT) % VOICE_COUNT ∧
      (∀ v, (pressUpTo notes i).voice_note v ≠ VOICE_UNASSIGNED) ∧
      (pressUpTo notes (i + 1)).voice_note (pressUpTo notes i).next_voice =
        encNote (notes.get ⟨i, hi⟩) ∧
      (pressUpTo notes (i + 1)).next_voice.val =
        (i + 1 - VOICE_COUNT) % VOICE_COUNT) ∧
    (∀ i j : Nat, VOICE_COUNT ≤ i → i < j →
      (i - VOICE_COUNT) % VOICE_COUNT = (j - VOICE_COUNT) % VOICE_COUNT →
      i + VOICE_COUNT ≤ j) := by
  refine ⟨?_, ?_, ?_, ?_, ?_, ?_, ?_⟩
  · intro st k o voice h
    rw [hkc_retrigger h]
  · intro st k o voice h1 h2
    rw [hkc_free h1 h2]
    rfl
  · intro st k o h1 h2
    rw [hkc_steal h1 h2]
    rfl
  · intro st k o
    rcases h : Fin.find (fun v => st.voice_note v = encode_note k o) with _ | v
    · rw [hkc_off_none h]
    · rw [hkc_off_some h]
  · intro st st' b h
    unfold KeyboardSynth.set_pitch_bend at h
    split at h
    · obtain rfl := Option.some.inj h
      rfl
    · exact absurd h (by simp)
  · intro notes hnd i h7 hi
    obtain ⟨ihc, iha, _, ihm⟩ := press_invariant notes hnd i (Nat.le_of_lt hi)
    have hall : ∀ v : Fin VOICE_COUNT,
        (pressUpTo notes i).voice_note v ≠ VOICE_UNASSIGNED :=
      fun v => iha v (lt_of_lt_of_le v.isLt h7)
    have hnh : ∀ v, (pressUpTo notes i).voice_note v ≠
        encode_note (notes.get ⟨i, hi⟩).1 (notes.get ⟨i, hi⟩).2 := by
      intro v hv
      have hmem := ihm v (hall v)
      rw [hv] at hmem
      exact press_fresh notes hnd i hi hmem
    have hf : Fin.find (fun v => (pressUpTo notes i).voice_note v =
        encode_note (notes.get ⟨i, hi⟩).1 (notes.get ⟨i, hi⟩).2) = none :=
      Fin.find_eq_none_iff.mpr hnh
    have h2 : Fin.find (fun v => (pressUpTo notes i).voice_note v =
        VOICE_UNASSIGNED) = none := Fin.find_eq_none_iff.mpr hall
    refine ⟨ihc, hall, ?_, ?_⟩
    · rw [pressUpTo_succ notes i hi, hkc_steal hf h2, allocate_voice_def]
      show Function.update (pressUpTo notes i).voice_note
        (pressUpTo notes i).next_voice
        (encode_note (notes.get ⟨i, hi⟩).1 (notes.get ⟨i, hi⟩).2)
        (pressUpTo notes i).next_voice = encNote (notes.get ⟨i, hi⟩)
      rw [Function.update_same]
      rfl
    · exact (press_invariant notes hnd (i + 1) hi).1
  · intro i j h1 h2 h3
    have h1' : 7 ≤ i := h1
    have h3' : (i - 7) % 7 = (j - 7) % 7 := h3
    show i + 7 ≤ j
    omega

/-- Witness for C3: pressing the 8 distinct notes with keys 0..7 of octave 0
on a fresh synth, press number 7 (the 8th) finds the cursor at
(7 - VOICE_COUNT) % VOICE_COUNT = 0. -/
theorem round_robin_fairness_witness :
    (([((0 : Fin KEY_COUNT), (0 : Fin OCTAVE_COUNT)), (1, 0), (2, 0), (3, 0),
        (4, 0), (5, 0), (6, 0), (7, 0)].map encNote).Nodup ∧
      VOICE_COUNT ≤ 7 ∧
      7 < [((0 : Fin KEY_COUNT), (0 : Fin OCTAVE_COUNT)), (1, 0), (2, 0),
        (3, 0), (4, 0), (5, 0), (6, 0), (7, 0)].length) ∧
    (pressUpTo [((0 : Fin KEY_COUNT), (0 : Fin OCTAVE_COUNT)), (1, 0), (2, 0),
        (3, 0), (4, 0), (5, 0), (6, 0), (7, 0)] 7).next_voice.val =
      (7 - VOICE_COUNT) % VOICE_COUNT :=
  ⟨⟨by decide, by decide, by decide⟩,
    (round_robin_fairness.2.2.2.2.2.1 _ (by decide) 7 (by decide)
      (by decide)).1⟩

end Pico2Synth
